import Mathlib

/-!
Verification of the toy Reed-Solomon-style data-recovery programs:
a finite-field version (integers mod 17, `finite.c`) and a complex-integer
version (`main.c`).  Both encode a 4-coefficient polynomial as its
evaluations at the fourth roots of unity, erase some evaluations, and
recover the original coefficients through a zero-polynomial mask, a
scale step, a pointwise division and an inverse transform.

C `int` arithmetic is embedded as `Int`; C's `%` and `/` on `int` are
truncating, which is `Int.tmod` / `Int.tdiv`.  A failing C `assert`
aborts the program, which is embedded by returning `none`.
-/

namespace Fin17

/-- The modulus of the finite field, `#define MOD 17`. -/
def MOD : Int := 17

/-- The fourth root of unity used by `finite.c`: `const int i = 4`. -/
def i : Int := 4

/-- `equal` from finite.c: `a % MOD == b % MOD` (C `%` is truncating). -/
def equal (a b : Int) : Bool := a.tmod MOD == b.tmod MOD

/-- `neg` from finite.c: `MOD - a`, with no reduction mod `MOD`. -/
def neg (a : Int) : Int := MOD - a

/-- `add` from finite.c: `(a + b) % MOD`. -/
def add (a b : Int) : Int := (a + b).tmod MOD

/-- `sub` from finite.c: `(a + neg(b)) % MOD`. -/
def sub (a b : Int) : Int := (a + neg b).tmod MOD

/-- `mul` from finite.c: `(a * b) % MOD`. -/
def mul (a b : Int) : Int := (a * b).tmod MOD

/-- The hardcoded inverse table `inv` of `div` in finite.c. -/
def inv : List Int := [0, 1, 9, 6, 13, 7, 3, 5, 15, 2, 12, 14, 10, 4, 11, 8, 16]

/-- `div` from finite.c: `ret = (a * inv[b % MOD]) % MOD` followed by
`assert(equal(a, mul(ret, b)))`; the failing assert is embedded as `none`.
(For `b % MOD < 0` the C array read is out of bounds; the embedding
clamps the index via `toNat`, a case no claim exercises.) -/
def div (a b : Int) : Option Int :=
  let ret := (a * inv.getD (b.tmod MOD).toNat 0).tmod MOD
  if equal a (mul ret b) then some ret else none

/-- A length-4 coefficient (or evaluation) vector, the `int[4]` arrays of
finite.c. -/
structure Poly where
  a0 : Int
  a1 : Int
  a2 : Int
  a3 : Int
deriving DecidableEq

/-- Coefficient `j` of a `Poly`, i.e. the C array subscript. -/
def coeff (p : Poly) (j : Fin 4) : Int :=
  match j with
  | ⟨0, _⟩ => p.a0
  | ⟨1, _⟩ => p.a1
  | ⟨2, _⟩ => p.a2
  | ⟨3, _⟩ => p.a3

/-- `eval_from_poly` from finite.c: the hand-unrolled length-4 forward
transform. -/
def eval_from_poly (coeffs : Poly) : Poly :=
  let c0_p_c2 := add coeffs.a0 coeffs.a2
  let c0_m_c2 := sub coeffs.a0 coeffs.a2
  let c1_p_c3 := add coeffs.a1 coeffs.a3
  let c1_m_c3 := sub coeffs.a1 coeffs.a3
  ⟨add c0_p_c2 c1_p_c3,
   add c0_m_c2 (mul i c1_m_c3),
   sub c0_p_c2 c1_p_c3,
   sub c0_m_c2 (mul i c1_m_c3)⟩

/-- `poly_from_eval` from finite.c: the inverse transform; each of the four
results is divided by 4, and a failing division (failing C assert) makes the
whole call fail. -/
def poly_from_eval (eval : Poly) : Option Poly :=
  let c0_p_c2 := add eval.a0 eval.a2
  let c0_m_c2 := sub eval.a0 eval.a2
  let c1_p_c3 := add eval.a1 eval.a3
  let c1_m_c3 := sub eval.a1 eval.a3
  match div (add c0_p_c2 c1_p_c3) 4, div (sub c0_m_c2 (mul i c1_m_c3)) 4,
        div (sub c0_p_c2 c1_p_c3) 4, div (add c0_m_c2 (mul i c1_m_c3)) 4 with
  | some d0, some d1, some d2, some d3 => some ⟨d0, d1, d2, d3⟩
  | _, _, _, _ => none

/-- `scale` from finite.c: coefficient 0 untouched, coefficient `j`
multiplied by the running factor `fac`, which takes the values
`k`, `mul k k`, `mul (mul k k) k`. -/
def scale (a : Poly) (k : Int) : Poly :=
  ⟨a.a0, mul a.a1 k, mul a.a2 (mul k k), mul a.a3 (mul (mul k k) k)⟩

/-- `unscale` from finite.c: coefficient 0 untouched, coefficient `j`
divided by the same running factors as `scale`; any failing division
(failing C assert) fails the call. -/
def unscale (a : Poly) (k : Int) : Option Poly :=
  match div a.a1 k, div a.a2 (mul k k), div a.a3 (mul (mul k k) k) with
  | some b1, some b2, some b3 => some ⟨a.a0, b1, b2, b3⟩
  | _, _, _ => none

/-- The running factors of `scale`/`unscale`, i.e. `k` to the power `j`
computed by the iterated field multiplication of finite.c. -/
def fpow (k : Int) : Nat → Int
  | 0 => 1
  | 1 => k
  | n + 2 => mul (fpow k (n + 1)) k

/-- Pointwise product of two evaluation vectors (the `ez_eval` loop of
finite.c's `main`). -/
def pointwise_mul (p q : Poly) : Poly :=
  ⟨mul p.a0 q.a0, mul p.a1 q.a1, mul p.a2 q.a2, mul p.a3 q.a3⟩

/-- Pointwise quotient of two evaluation vectors (the `quotient_eval` loop
of finite.c's `main`); fails if any single division fails. -/
def pointwise_div (p q : Poly) : Option Poly :=
  match div p.a0 q.a0, div p.a1 q.a1, div p.a2 q.a2, div p.a3 q.a3 with
  | some c0, some c1, some c2, some c3 => some ⟨c0, c1, c2, c3⟩
  | _, _, _, _ => none

/-- The data polynomial of finite.c's `main`: `{5, 7, 0, 0}`. -/
def data_poly : Poly := ⟨5, 7, 0, 0⟩

/-- `data_eval` right after encoding in finite.c's `main`. -/
def data_eval : Poly := eval_from_poly data_poly

/-- `data_eval` after `main` erases positions 1 and 2 (overwritten with 0). -/
def data_eval_erased : Poly := ⟨data_eval.a0, 0, 0, data_eval.a3⟩

/-- The hardcoded zero polynomial of finite.c's `main`: `{13, 14, 1, 0}`,
built as `(x - 4)(x - 16)`. -/
def zero_poly : Poly := ⟨13, 14, 1, 0⟩

/-- `zero_poly_eval` of finite.c's `main`. -/
def zero_poly_eval : Poly := eval_from_poly zero_poly

/-- `ez_eval` of finite.c's `main`. -/
def ez_eval : Poly := pointwise_mul data_eval_erased zero_poly_eval

/-- The remainder of finite.c's `main` after `ez_eval`: interpolate, scale
both polynomials by 2, re-evaluate, divide pointwise, interpolate and
unscale, yielding the recovered polynomial. -/
def main_result : Option Poly := do
  let dz_poly ← poly_from_eval ez_eval
  let dz_scaled := scale dz_poly 2
  let zero_scaled := scale zero_poly 2
  let dz_scaled_eval := eval_from_poly dz_scaled
  let zero_scaled_eval := eval_from_poly zero_scaled
  let quotient_eval ← pointwise_div dz_scaled_eval zero_scaled_eval
  let recovered_scaled ← poly_from_eval quotient_eval
  unscale recovered_scaled 2

/-- The powers of the primitive root `[1, 4, 16, 13]` (finite.c, header
comment): `r^j` is the evaluation point of index `j`. -/
def root_pows : List Int := [1, 4, 16, 13]

/-- Overwrite the evaluations at the indices of `pattern` with 0, the
erasure step of finite.c's `main` generalized from the hardcoded
`{1, 2}` to an arbitrary index list. -/
def erase_eval (e : Poly) (pattern : List (Fin 4)) : Poly :=
  ⟨if (0 : Fin 4) ∈ pattern then 0 else e.a0,
   if (1 : Fin 4) ∈ pattern then 0 else e.a1,
   if (2 : Fin 4) ∈ pattern then 0 else e.a2,
   if (3 : Fin 4) ∈ pattern then 0 else e.a3⟩

/-- Multiply a polynomial by `(x - c)` using the field operations,
dropping any degree-4 term (the 4-coefficient representation cannot hold
it). -/
def mul_by_x_minus (p : Poly) (c : Int) : Poly :=
  ⟨sub 0 (mul c p.a0), sub p.a0 (mul c p.a1), sub p.a1 (mul c p.a2),
   sub p.a2 (mul c p.a3)⟩

/-- Modelled from the spec: the zero-polynomial construction for an
arbitrary erasure pattern, which finite.c only hand-expands for the
pattern `{1, 2}` (`zero_poly = {13, 14, 1, 0}`).  Following the comment
in `main` ("the product of `(x - r^j)` for each of the indices j that is
missing") and spec step 3, it is the product of the factors `(x - r^j)`
over the pattern, computed with the field operations. -/
def zero_poly_for (pattern : List (Fin 4)) : Poly :=
  pattern.foldl (fun acc j => mul_by_x_minus acc (root_pows.getD (j : Nat) 0))
    ⟨1, 0, 0, 0⟩

/-- Modelled from the spec: finite.c's `main` pipeline with the erasure
pattern as a parameter instead of the hardcoded `{1, 2}`.  Every step is
the one `main` performs, in order, with no erasure-count check anywhere
(none exists in the source): encode, erase, build the zero polynomial,
mask, interpolate, scale by 2, divide pointwise, interpolate, unscale. -/
def recover (pattern : List (Fin 4)) : Option Poly := do
  let e := erase_eval data_eval pattern
  let z := zero_poly_for pattern
  let z_eval := eval_from_poly z
  let ez := pointwise_mul e z_eval
  let dz_poly ← poly_from_eval ez
  let dz_scaled := scale dz_poly 2
  let z_scaled := scale z 2
  let quotient_eval ← pointwise_div (eval_from_poly dz_scaled) (eval_from_poly z_scaled)
  let recovered_scaled ← poly_from_eval quotient_eval
  unscale recovered_scaled 2

/-- A canonical residue of the mod-17 field: an integer in `[0, 17)`. -/
def canon (x : Int) : Prop := 0 ≤ x ∧ x < 17

instance (x : Int) : Decidable (canon x) := by unfold canon; infer_instance

/-- All four coefficients are canonical residues. -/
def canonP (p : Poly) : Prop :=
  canon p.a0 ∧ canon p.a1 ∧ canon p.a2 ∧ canon p.a3

instance (p : Poly) : Decidable (canonP p) := by unfold canonP; infer_instance

/-- The semantics of a residue in the field `ZMod 17`. -/
def phi (x : Int) : ZMod 17 := (x : ZMod 17)

/-- `x` is a canonical residue whose field value is `v`; the invariant
carried through the butterfly computations. -/
def tracks (x : Int) (v : ZMod 17) : Prop := canon x ∧ phi x = v

/-- The reference length-4 DFT over the mod-17 field: output `j` is
`sum over k` of `p[k] * r^(j*k)` with `r = 4`, reduced to the canonical
residue. -/
def dft (p : Poly) (j : Fin 4) : Int :=
  (p.a0 * i ^ ((j : Nat) * 0) + p.a1 * i ^ ((j : Nat) * 1) +
   p.a2 * i ^ ((j : Nat) * 2) + p.a3 * i ^ ((j : Nat) * 3)).tmod MOD

end Fin17

namespace Cplx

/-- The `complex` struct of main.c: a pair of C `int`s. -/
structure complex where
  re : Int
  im : Int
deriving DecidableEq

/-- `zero` from main.c. -/
def zero : complex := ⟨0, 0⟩

/-- `i` from main.c. -/
def i : complex := ⟨0, 1⟩

/-- `two` from main.c. -/
def two : complex := ⟨2, 0⟩

/-- `four` from main.c. -/
def four : complex := ⟨4, 0⟩

/-- `equal` from main.c: componentwise equality. -/
def equal (a b : complex) : Bool := a.re == b.re && a.im == b.im

/-- `cconj` from main.c. -/
def cconj (a : complex) : complex := ⟨a.re, -a.im⟩

/-- `add` from main.c. -/
def add (a b : complex) : complex := ⟨a.re + b.re, a.im + b.im⟩

/-- `sub` from main.c. -/
def sub (a b : complex) : complex := ⟨a.re - b.re, a.im - b.im⟩

/-- `mul` from main.c. -/
def mul (a b : complex) : complex :=
  ⟨a.re * b.re - a.im * b.im, a.re * b.im + a.im * b.re⟩

/-- `div` from main.c: multiply by the conjugate and divide each part by
`(b * cconj b).re` with C's truncating integer division (`Int.tdiv`),
then `assert(equal(a, mul(ret, b)))`.  A zero divisor is a C division by
zero (the program faults); both that and the failing assert are embedded
as `none`. -/
def div (a b : complex) : Option complex :=
  let b_conj := cconj b
  let ab_conj := mul a b_conj
  let bb_conj := mul b b_conj
  if bb_conj.re = 0 then none
  else
    let ret : complex := ⟨ab_conj.re.tdiv bb_conj.re, ab_conj.im.tdiv bb_conj.re⟩
    if equal a (mul ret b) then some ret else none

/-- A length-4 coefficient (or evaluation) vector, the `complex[4]` arrays
of main.c. -/
structure Poly where
  a0 : complex
  a1 : complex
  a2 : complex
  a3 : complex
deriving DecidableEq

/-- Coefficient `j` of a `Cplx.Poly`, i.e. the C array subscript. -/
def coeff (p : Poly) (j : Fin 4) : complex :=
  match j with
  | ⟨0, _⟩ => p.a0
  | ⟨1, _⟩ => p.a1
  | ⟨2, _⟩ => p.a2
  | ⟨3, _⟩ => p.a3

/-- `eval_from_poly` from main.c: the hand-unrolled length-4 forward
transform. -/
def eval_from_poly (coeffs : Poly) : Poly :=
  let c0_p_c2 := add coeffs.a0 coeffs.a2
  let c0_m_c2 := sub coeffs.a0 coeffs.a2
  let c1_p_c3 := add coeffs.a1 coeffs.a3
  let c1_m_c3 := sub coeffs.a1 coeffs.a3
  ⟨add c0_p_c2 c1_p_c3,
   add c0_m_c2 (mul i c1_m_c3),
   sub c0_p_c2 c1_p_c3,
   sub c0_m_c2 (mul i c1_m_c3)⟩

/-- `poly_from_eval` from main.c: the inverse transform; each of the four
results is divided by `four`, and a failing division (failing C assert)
makes the whole call fail. -/
def poly_from_eval (eval : Poly) : Option Poly :=
  let c0_p_c2 := add eval.a0 eval.a2
  let c0_m_c2 := sub eval.a0 eval.a2
  let c1_p_c3 := add eval.a1 eval.a3
  let c1_m_c3 := sub eval.a1 eval.a3
  match div (add c0_p_c2 c1_p_c3) four, div (sub c0_m_c2 (mul i c1_m_c3)) four,
        div (sub c0_p_c2 c1_p_c3) four, div (add c0_m_c2 (mul i c1_m_c3)) four with
  | some d0, some d1, some d2, some d3 => some ⟨d0, d1, d2, d3⟩
  | _, _, _, _ => none

/-- `scale` from main.c: coefficient 0 untouched, coefficient `j`
multiplied by the running factor `fac` (values `k`, `mul k k`,
`mul (mul k k) k`). -/
def scale (a : Poly) (k : complex) : Poly :=
  ⟨a.a0, mul a.a1 k, mul a.a2 (mul k k), mul a.a3 (mul (mul k k) k)⟩

/-- `unscale` from main.c: coefficient 0 untouched, coefficient `j` divided
by the same running factors as `scale`; any failing division fails the
call. -/
def unscale (a : Poly) (k : complex) : Option Poly :=
  match div a.a1 k, div a.a2 (mul k k), div a.a3 (mul (mul k k) k) with
  | some b1, some b2, some b3 => some ⟨a.a0, b1, b2, b3⟩
  | _, _, _ => none

/-- The running factors of `scale`/`unscale`, i.e. `k` to the power `j`
computed by the iterated complex multiplication of main.c. -/
def cpow (k : complex) : Nat → complex
  | 0 => ⟨1, 0⟩
  | 1 => k
  | n + 2 => mul (cpow k (n + 1)) k

/-- Pointwise product of two evaluation vectors (the `ez_eval` loop of
main.c's `main`). -/
def pointwise_mul (p q : Poly) : Poly :=
  ⟨mul p.a0 q.a0, mul p.a1 q.a1, mul p.a2 q.a2, mul p.a3 q.a3⟩

/-- Pointwise quotient of two evaluation vectors (the `quotient_eval` loop
of main.c's `main`); fails if any single division fails. -/
def pointwise_div (p q : Poly) : Option Poly :=
  match div p.a0 q.a0, div p.a1 q.a1, div p.a2 q.a2, div p.a3 q.a3 with
  | some c0, some c1, some c2, some c3 => some ⟨c0, c1, c2, c3⟩
  | _, _, _, _ => none

/-- The data polynomial of main.c's `main`: `{{5,0}, {7,0}, {0,0}, {0,0}}`. -/
def data_poly : Poly := ⟨⟨5, 0⟩, ⟨7, 0⟩, ⟨0, 0⟩, ⟨0, 0⟩⟩

/-- `data_eval` right after encoding in main.c's `main`. -/
def data_eval : Poly := eval_from_poly data_poly

/-- `data_eval` after `main` erases positions 1 and 2 (overwritten with
`new_complex(0, 0)`). -/
def data_eval_erased : Poly := ⟨data_eval.a0, ⟨0, 0⟩, ⟨0, 0⟩, data_eval.a3⟩

/-- The hardcoded zero polynomial of main.c's `main`:
`{{0,-1}, {1,-1}, {1,0}, {0,0}}`, built as `(x - i)(x + 1)`. -/
def zero_poly : Poly := ⟨⟨0, -1⟩, ⟨1, -1⟩, ⟨1, 0⟩, ⟨0, 0⟩⟩

/-- `zero_poly_eval` of main.c's `main`. -/
def zero_poly_eval : Poly := eval_from_poly zero_poly

/-- `ez_eval` of main.c's `main`. -/
def ez_eval : Poly := pointwise_mul data_eval_erased zero_poly_eval

/-- The remainder of main.c's `main` after `ez_eval`: interpolate, scale
both polynomials by `two`, re-evaluate, divide pointwise, interpolate and
unscale, yielding the recovered polynomial. -/
def main_result : Option Poly := do
  let dz_poly ← poly_from_eval ez_eval
  let dz_scaled := scale dz_poly two
  let zero_scaled := scale zero_poly two
  let dz_scaled_eval := eval_from_poly dz_scaled
  let zero_scaled_eval := eval_from_poly zero_scaled
  let quotient_eval ← pointwise_div dz_scaled_eval zero_scaled_eval
  let recovered_scaled ← poly_from_eval quotient_eval
  unscale recovered_scaled two

/-- The reference length-4 DFT over the complex integers: output `j` is
`sum over k` of `p[k] * i^(j*k)`, exactly, with `i` the imaginary unit. -/
def dft (p : Poly) (j : Fin 4) : complex :=
  add (add (mul p.a0 (cpow i ((j : Nat) * 0))) (mul p.a1 (cpow i ((j : Nat) * 1))))
      (add (mul p.a2 (cpow i ((j : Nat) * 2))) (mul p.a3 (cpow i ((j : Nat) * 3))))

end Cplx

namespace Fin17

/-- Truncating remainder by 17 of a nonnegative integer is a canonical
residue. -/
theorem tmod17_canon {x : Int} (hx : 0 ≤ x) : canon (x.tmod 17) := by
  rw [Int.tmod_eq_emod hx (by norm_num)]
  exact ⟨Int.emod_nonneg x (by norm_num), Int.emod_lt_of_pos x (by norm_num)⟩

theorem canon_add {a b : Int} (ha : canon a) (hb : canon b) : canon (add a b) :=
  tmod17_canon (by obtain ⟨h1, h2⟩ := ha; obtain ⟨h3, h4⟩ := hb; omega)

theorem canon_sub {a b : Int} (ha : canon a) (hb : canon b) : canon (sub a b) := by
  have h : (0 : Int) ≤ a + neg b := by
    obtain ⟨h1, h2⟩ := ha; obtain ⟨h3, h4⟩ := hb
    simp only [neg, MOD]; omega
  exact tmod17_canon h

theorem canon_mul {a b : Int} (ha : canon a) (hb : canon b) : canon (mul a b) :=
  tmod17_canon (mul_nonneg ha.1 hb.1)

theorem canon_neg {a : Int} (ha : canon a) (hne : a ≠ 0) : canon (neg a) := by
  obtain ⟨h1, h2⟩ := ha
  unfold neg MOD canon
  omega

/-- Every entry of the inverse table is nonnegative. -/
theorem inv_nonneg (n : Nat) : 0 ≤ inv.getD n 0 := by
  rcases Nat.lt_or_ge n inv.length with h | h
  · rw [List.getD_eq_getElem _ _ h]
    exact (by decide : ∀ x ∈ inv, 0 ≤ x) _ (List.getElem_mem h)
  · rw [List.getD_eq_default _ _ h]

/-- A successful division of a nonnegative value returns a canonical
residue. -/
theorem canon_div {a b q : Int} (ha : 0 ≤ a) (h : div a b = some q) : canon q := by
  simp only [div] at h
  split_ifs at h with hc
  cases h
  exact tmod17_canon (mul_nonneg ha (inv_nonneg _))

/-- A canonical residue is the image of an element of `Fin 17`. -/
theorem canon_fin {x : Int} (hx : canon x) : ∃ n : Fin 17, x = ((n : Nat) : Int) := by
  obtain ⟨h1, h2⟩ := hx
  exact ⟨⟨x.toNat, by omega⟩, (Int.toNat_of_nonneg h1).symm⟩

theorem canon_i : canon i := by decide

/-- Division by 4 always succeeds on canonical residues and multiplies by
the table inverse 13 (checked on all 17 residues). -/
theorem div4_fin :
    ∀ c : Fin 17, div ((c : Nat) : Int) 4 = some (mul ((c : Nat) : Int) 13) := by
  decide

theorem div4_some {c : Int} (hc : canon c) : div c 4 = some (mul c 13) := by
  obtain ⟨n, rfl⟩ := canon_fin hc
  exact div4_fin n

/-- `div (mul x c) c = some x` for canonical residues with `c` nonzero
(checked on all 289 pairs). -/
theorem div_mul_cancel_fin :
    ∀ x c : Fin 17, ((c : Nat) : Int) ≠ 0 →
      div (mul ((x : Nat) : Int) ((c : Nat) : Int)) ((c : Nat) : Int) =
        some ((x : Nat) : Int) := by
  decide

theorem div_mul_cancel {x c : Int} (hx : canon x) (hc : canon c) (hne : c ≠ 0) :
    div (mul x c) c = some x := by
  obtain ⟨n, rfl⟩ := canon_fin hx
  obtain ⟨m, rfl⟩ := canon_fin hc
  exact div_mul_cancel_fin n m hne

/-- Iterated products of a nonzero canonical residue stay nonzero
(checked on all 17 residues). -/
theorem pow_ne_zero_fin :
    ∀ k : Fin 17, ((k : Nat) : Int) ≠ 0 →
      mul ((k : Nat) : Int) ((k : Nat) : Int) ≠ 0 ∧
        mul (mul ((k : Nat) : Int) ((k : Nat) : Int)) ((k : Nat) : Int) ≠ 0 := by
  decide

/-- Success characterization of finite-field `div` on canonical residues
(checked on all 289 pairs): it succeeds unless `b = 0` and `a` is a
nonzero residue. -/
theorem div_isSome_fin :
    ∀ a b : Fin 17,
      ((div ((a : Nat) : Int) ((b : Nat) : Int)).isSome = true ↔
        (((b : Nat) : Int) ≠ 0 ∨ ((a : Nat) : Int) = 0)) := by
  decide

theorem div_isSome_f {a b : Int} (ha : canon a) (hb : canon b) :
    (div a b).isSome = true ↔ (b ≠ 0 ∨ a = 0) := by
  obtain ⟨n, rfl⟩ := canon_fin ha
  obtain ⟨m, rfl⟩ := canon_fin hb
  exact div_isSome_fin n m

/-- When finite-field `div` succeeds the quotient verifies
`mul q b == a` in the field (the assert of finite.c). -/
theorem div_sound_f {a b q : Int} (h : div a b = some q) :
    equal (mul q b) a = true := by
  simp only [div] at h
  split_ifs at h with hc
  cases h
  simp only [equal, beq_iff_eq] at hc ⊢
  exact hc.symm

theorem seventeen_eq_zero : (17 : ZMod 17) = 0 := by decide

theorem phi_tmod {x : Int} (hx : 0 ≤ x) : phi (x.tmod 17) = phi x := by
  unfold phi
  rw [Int.tmod_eq_emod hx (by norm_num)]
  exact_mod_cast ZMod.intCast_mod x 17

/-- Two canonical residues with the same field value are equal. -/
theorem canon_inj {a b : Int} (ha : canon a) (hb : canon b) (h : phi a = phi b) :
    a = b := by
  unfold phi at h
  rw [ZMod.intCast_eq_intCast_iff] at h
  rw [Int.ModEq] at h
  obtain ⟨h1, h2⟩ := ha
  obtain ⟨h3, h4⟩ := hb
  push_cast at h
  omega

theorem tracks_add {a b : Int} {u v : ZMod 17} (ha : tracks a u) (hb : tracks b v) :
    tracks (add a b) (u + v) := by
  obtain ⟨⟨ha0, ha1⟩, hau⟩ := ha
  obtain ⟨⟨hb0, hb1⟩, hbv⟩ := hb
  refine ⟨tmod17_canon (by omega), ?_⟩
  show phi ((a + b).tmod 17) = u + v
  rw [phi_tmod (by omega)]
  unfold phi at hau hbv ⊢
  push_cast
  rw [hau, hbv]

theorem tracks_sub {a b : Int} {u v : ZMod 17} (ha : tracks a u) (hb : tracks b v) :
    tracks (sub a b) (u - v) := by
  obtain ⟨⟨ha0, ha1⟩, hau⟩ := ha
  obtain ⟨⟨hb0, hb1⟩, hbv⟩ := hb
  refine ⟨tmod17_canon (by simp only [neg, MOD]; omega), ?_⟩
  show phi ((a + (17 - b)).tmod 17) = u - v
  rw [phi_tmod (by omega)]
  unfold phi at hau hbv ⊢
  push_cast
  rw [hau, hbv]
  rw [seventeen_eq_zero]
  ring

theorem tracks_mul {a b : Int} {u v : ZMod 17} (ha : tracks a u) (hb : tracks b v) :
    tracks (mul a b) (u * v) := by
  obtain ⟨⟨ha0, ha1⟩, hau⟩ := ha
  obtain ⟨⟨hb0, hb1⟩, hbv⟩ := hb
  refine ⟨tmod17_canon (mul_nonneg ha0 hb0), ?_⟩
  show phi ((a * b).tmod 17) = u * v
  rw [phi_tmod (mul_nonneg ha0 hb0)]
  unfold phi at hau hbv ⊢
  push_cast
  rw [hau, hbv]

theorem tracks_i : tracks i 4 := ⟨by decide, by decide⟩

theorem tracks_13 : tracks 13 13 := ⟨by decide, by decide⟩

theorem tracks_self {a : Int} (ha : canon a) : tracks a (phi a) := ⟨ha, rfl⟩

/-- Round trip of the finite-field transform on canonical polynomials. -/
theorem roundtrip_f {p : Poly} (hp : canonP p) :
    poly_from_eval (eval_from_poly p) = some p := by
  obtain ⟨pa0, pa1, pa2, pa3⟩ := p
  obtain ⟨h0, h1, h2, h3⟩ := hp
  have t0 := tracks_self h0
  have t1 := tracks_self h1
  have t2 := tracks_self h2
  have t3 := tracks_self h3
  have e0 := tracks_add (tracks_add t0 t2) (tracks_add t1 t3)
  have e1 := tracks_add (tracks_sub t0 t2) (tracks_mul tracks_i (tracks_sub t1 t3))
  have e2 := tracks_sub (tracks_add t0 t2) (tracks_add t1 t3)
  have e3 := tracks_sub (tracks_sub t0 t2) (tracks_mul tracks_i (tracks_sub t1 t3))
  have x0 := tracks_mul (tracks_add (tracks_add e0 e2) (tracks_add e1 e3)) tracks_13
  have x1 := tracks_mul
    (tracks_sub (tracks_sub e0 e2) (tracks_mul tracks_i (tracks_sub e1 e3))) tracks_13
  have x2 := tracks_mul (tracks_sub (tracks_add e0 e2) (tracks_add e1 e3)) tracks_13
  have x3 := tracks_mul
    (tracks_add (tracks_sub e0 e2) (tracks_mul tracks_i (tracks_sub e1 e3))) tracks_13
  have h17 := seventeen_eq_zero
  simp only [eval_from_poly, poly_from_eval]
  rw [div4_some (tracks_add (tracks_add e0 e2) (tracks_add e1 e3)).1,
      div4_some (tracks_sub (tracks_sub e0 e2)
        (tracks_mul tracks_i (tracks_sub e1 e3))).1,
      div4_some (tracks_sub (tracks_add e0 e2) (tracks_add e1 e3)).1,
      div4_some (tracks_add (tracks_sub e0 e2)
        (tracks_mul tracks_i (tracks_sub e1 e3))).1]
  simp only [Option.some.injEq, Poly.mk.injEq]
  refine ⟨?_, ?_, ?_, ?_⟩
  · exact canon_inj x0.1 h0 (by
      rw [x0.2]
      linear_combination (3 * phi pa0) * h17)
  · exact canon_inj x1.1 h1 (by
      rw [x1.2]
      linear_combination (26 * phi pa3 - 23 * phi pa1) * h17)
  · exact canon_inj x2.1 h2 (by
      rw [x2.2]
      linear_combination (3 * phi pa2) * h17)
  · exact canon_inj x3.1 h3 (by
      rw [x3.2]
      linear_combination (26 * phi pa1 - 23 * phi pa3) * h17)

/-- The inverse transform never fails on canonical evaluation vectors. -/
theorem poly_from_eval_isSome {e : Poly} (he : canonP e) :
    (poly_from_eval e).isSome = true := by
  obtain ⟨ea0, ea1, ea2, ea3⟩ := e
  obtain ⟨h0, h1, h2, h3⟩ := he
  simp only [poly_from_eval]
  rw [div4_some (canon_add (canon_add h0 h2) (canon_add h1 h3)),
      div4_some (canon_sub (canon_sub h0 h2) (canon_mul canon_i (canon_sub h1 h3))),
      div4_some (canon_sub (canon_add h0 h2) (canon_add h1 h3)),
      div4_some (canon_add (canon_sub h0 h2) (canon_mul canon_i (canon_sub h1 h3)))]
  rfl

/-- The sum defining the reference DFT is nonnegative on nonnegative
coefficients. -/
theorem dft_nonneg {x0 x1 x2 x3 : Int} (h0 : 0 ≤ x0) (h1 : 0 ≤ x1) (h2 : 0 ≤ x2)
    (h3 : 0 ≤ x3) (e1 e2 e3 : Nat) :
    0 ≤ x0 * i ^ 0 + x1 * i ^ e1 + x2 * i ^ e2 + x3 * i ^ e3 := by
  have hi : (0 : Int) ≤ i := by decide
  exact add_nonneg
    (add_nonneg (add_nonneg (mul_nonneg h0 (pow_nonneg hi 0))
      (mul_nonneg h1 (pow_nonneg hi e1))) (mul_nonneg h2 (pow_nonneg hi e2)))
    (mul_nonneg h3 (pow_nonneg hi e3))

/-- The forward transform agrees with the reference DFT on canonical
polynomials. -/
theorem eval_dft_f {p : Poly} (hp : canonP p) (j : Fin 4) :
    coeff (eval_from_poly p) j = dft p j := by
  obtain ⟨pa0, pa1, pa2, pa3⟩ := p
  obtain ⟨h0, h1, h2, h3⟩ := hp
  dsimp only at h0 h1 h2 h3
  have t0 := tracks_self h0
  have t1 := tracks_self h1
  have t2 := tracks_self h2
  have t3 := tracks_self h3
  have e0 := tracks_add (tracks_add t0 t2) (tracks_add t1 t3)
  have e1 := tracks_add (tracks_sub t0 t2) (tracks_mul tracks_i (tracks_sub t1 t3))
  have e2 := tracks_sub (tracks_add t0 t2) (tracks_add t1 t3)
  have e3 := tracks_sub (tracks_sub t0 t2) (tracks_mul tracks_i (tracks_sub t1 t3))
  have h17 := seventeen_eq_zero
  fin_cases j
  · show add (add pa0 pa2) (add pa1 pa3)
        = (pa0 * i ^ 0 + pa1 * i ^ 0 + pa2 * i ^ 0 + pa3 * i ^ 0).tmod 17
    have hnn := dft_nonneg h0.1 h1.1 h2.1 h3.1 0 0 0
    exact canon_inj e0.1 (tmod17_canon hnn) (by
      rw [e0.2, phi_tmod hnn]
      unfold phi i
      push_cast
      ring)
  · show add (sub pa0 pa2) (mul i (sub pa1 pa3))
        = (pa0 * i ^ 0 + pa1 * i ^ 1 + pa2 * i ^ 2 + pa3 * i ^ 3).tmod 17
    have hnn := dft_nonneg h0.1 h1.1 h2.1 h3.1 1 2 3
    exact canon_inj e1.1 (tmod17_canon hnn) (by
      rw [e1.2, phi_tmod hnn]
      unfold phi i
      push_cast
      linear_combination (-((pa2 : ZMod 17)) - 4 * (pa3 : ZMod 17)) * h17)
  · show sub (add pa0 pa2) (add pa1 pa3)
        = (pa0 * i ^ 0 + pa1 * i ^ 2 + pa2 * i ^ 4 + pa3 * i ^ 6).tmod 17
    have hnn := dft_nonneg h0.1 h1.1 h2.1 h3.1 2 4 6
    exact canon_inj e2.1 (tmod17_canon hnn) (by
      rw [e2.2, phi_tmod hnn]
      unfold phi i
      push_cast
      linear_combination (-((pa1 : ZMod 17)) - 15 * (pa2 : ZMod 17) -
        241 * (pa3 : ZMod 17)) * h17)
  · show sub (sub pa0 pa2) (mul i (sub pa1 pa3))
        = (pa0 * i ^ 0 + pa1 * i ^ 3 + pa2 * i ^ 6 + pa3 * i ^ 9).tmod 17
    have hnn := dft_nonneg h0.1 h1.1 h2.1 h3.1 3 6 9
    exact canon_inj e3.1 (tmod17_canon hnn) (by
      rw [e3.2, phi_tmod hnn]
      unfold phi i
      push_cast
      linear_combination (-(4 : ZMod 17) * (pa1 : ZMod 17) - 241 * (pa2 : ZMod 17) -
        15420 * (pa3 : ZMod 17)) * h17)

/-- `unscale` after `scale` restores a canonical polynomial for every
nonzero canonical scale factor. -/
theorem scale_unscale_f {p : Poly} {k : Int} (hp : canonP p) (hk : canon k)
    (hne : k ≠ 0) : unscale (scale p k) k = some p := by
  obtain ⟨pa0, pa1, pa2, pa3⟩ := p
  obtain ⟨h0, h1, h2, h3⟩ := hp
  have hk2 : canon (mul k k) := canon_mul hk hk
  have hk3 : canon (mul (mul k k) k) := canon_mul hk2 hk
  have hpow : mul k k ≠ 0 ∧ mul (mul k k) k ≠ 0 := by
    obtain ⟨n, rfl⟩ := canon_fin hk
    exact pow_ne_zero_fin n hne
  simp only [scale, unscale]
  rw [div_mul_cancel h1 hk hne, div_mul_cancel h2 hk2 hpow.1,
      div_mul_cancel h3 hk3 hpow.2]

/-- Shape of a successful `unscale`: coefficient 0 is passed through and
coefficient `j` is the exact quotient by the running factor. -/
theorem unscale_char {a : Poly} {k : Int} {q : Poly} (h : unscale a k = some q) :
    q.a0 = a.a0 ∧ div a.a1 k = some q.a1 ∧ div a.a2 (mul k k) = some q.a2 ∧
      div a.a3 (mul (mul k k) k) = some q.a3 := by
  unfold unscale at h
  rcases hd1 : div a.a1 k with _ | b1 <;> rw [hd1] at h
  · exact Option.noConfusion h
  rcases hd2 : div a.a2 (mul k k) with _ | b2 <;> rw [hd2] at h
  · exact Option.noConfusion h
  rcases hd3 : div a.a3 (mul (mul k k) k) with _ | b3 <;> rw [hd3] at h
  · exact Option.noConfusion h
  cases h
  exact ⟨rfl, rfl, rfl, rfl⟩

end Fin17

namespace Cplx

/-- Boolean `equal` of main.c decides componentwise equality. -/
theorem cequal_eq {a b : complex} : equal a b = true ↔ a = b := by
  obtain ⟨x, y⟩ := a
  obtain ⟨z, w⟩ := b
  simp [equal, complex.mk.injEq]

theorem csum_sq_zero {x y : Int} (h : x * x + y * y = 0) : x = 0 ∧ y = 0 := by
  have hx : x * x = 0 := by nlinarith [mul_self_nonneg x, mul_self_nonneg y]
  have hy : y * y = 0 := by nlinarith [mul_self_nonneg x, mul_self_nonneg y]
  exact ⟨mul_self_eq_zero.mp hx, mul_self_eq_zero.mp hy⟩

/-- The square norm of a nonzero complex integer is nonzero. -/
theorem cnorm_ne_zero {b : complex} (hb : b ≠ zero) :
    b.re * b.re + b.im * b.im ≠ 0 := by
  obtain ⟨x, y⟩ := b
  show x * x + y * y ≠ 0
  intro h
  obtain ⟨h1, h2⟩ := csum_sq_zero h
  subst h1
  subst h2
  exact hb rfl

/-- The Gaussian integers have no zero divisors. -/
theorem cmul_ne_zero {a b : complex} (ha : a ≠ zero) (hb : b ≠ zero) :
    mul a b ≠ zero := by
  have hNa := cnorm_ne_zero ha
  have hNb := cnorm_ne_zero hb
  intro h
  have hn : (mul a b).re * (mul a b).re + (mul a b).im * (mul a b).im
      = (a.re * a.re + a.im * a.im) * (b.re * b.re + b.im * b.im) := by
    simp only [mul]
    ring
  rw [h] at hn
  simp only [zero] at hn
  exact mul_ne_zero hNa hNb (by linarith)

/-- Multiplying `mul q b` by the conjugate of `b` scales the components of
`q` by the square norm of `b`. -/
theorem cmul_conj (q b : complex) :
    mul (mul q b) (cconj b) =
      ⟨q.re * (mul b (cconj b)).re, q.im * (mul b (cconj b)).re⟩ := by
  obtain ⟨qr, qi⟩ := q
  obtain ⟨br, bi⟩ := b
  simp only [mul, cconj, complex.mk.injEq]
  constructor <;> ring

/-- Complex `div` recovers the exact quotient whenever one exists and the
divisor is nonzero. -/
theorem cdiv_exact {a b q : complex} (hb : b ≠ zero) (h : mul q b = a) :
    div a b = some q := by
  have hN : (mul b (cconj b)).re ≠ 0 := by
    have hn := cnorm_ne_zero hb
    obtain ⟨br, bi⟩ := b
    simp only [mul, cconj]
    intro hz
    apply hn
    nlinarith [hz]
  subst h
  simp only [div]
  rw [cmul_conj]
  dsimp only
  rw [if_neg hN]
  rw [Int.mul_tdiv_cancel _ hN, Int.mul_tdiv_cancel _ hN]
  have hq : (⟨q.re, q.im⟩ : complex) = q := rfl
  rw [hq, if_pos (cequal_eq.mpr rfl)]

/-- `div (mul x c) c = some x` for every nonzero complex divisor. -/
theorem cdiv_mul_cancel (x c : complex) (hc : c ≠ zero) :
    div (mul x c) c = some x :=
  cdiv_exact hc rfl

/-- When complex `div` succeeds the quotient is exact (the assert of
main.c). -/
theorem cdiv_sound {a b q : complex} (h : div a b = some q) : mul q b = a := by
  simp only [div] at h
  split_ifs at h with h1 h2
  cases h
  exact (cequal_eq.mp h2).symm

/-- Complex division by `{0, 0}` is a division by zero and fails. -/
theorem cdiv_zero (a : complex) : div a zero = none := rfl

/-- A failed complex division means the divisor is zero or no exact
quotient exists. -/
theorem cdiv_none {a b : complex} (h : div a b = none) :
    b = zero ∨ ∀ q, mul q b ≠ a := by
  by_cases hb : b = zero
  · exact Or.inl hb
  · refine Or.inr fun q hq => ?_
    rw [cdiv_exact hb hq] at h
    exact Option.noConfusion h

/-- Dividing `mul four w` by `four` is exact. -/
theorem cdiv_four (w : complex) : div (mul four w) four = some w :=
  cdiv_exact (by decide) (by
    obtain ⟨x, y⟩ := w
    simp only [mul, four, complex.mk.injEq]
    constructor <;> ring)

/-- Round trip of the complex transform: the inverse divisions by `four`
are always exact, with no hypothesis on `p`. -/
theorem roundtrip_c (p : Poly) : poly_from_eval (eval_from_poly p) = some p := by
  obtain ⟨p0, p1, p2, p3⟩ := p
  have h0 : add (add (eval_from_poly ⟨p0, p1, p2, p3⟩).a0
        (eval_from_poly ⟨p0, p1, p2, p3⟩).a2)
      (add (eval_from_poly ⟨p0, p1, p2, p3⟩).a1 (eval_from_poly ⟨p0, p1, p2, p3⟩).a3)
      = mul four p0 := by
    simp only [eval_from_poly, add, sub, mul, i, four, complex.mk.injEq]
    constructor <;> ring
  have h1 : sub (sub (eval_from_poly ⟨p0, p1, p2, p3⟩).a0
        (eval_from_poly ⟨p0, p1, p2, p3⟩).a2)
      (mul i (sub (eval_from_poly ⟨p0, p1, p2, p3⟩).a1
        (eval_from_poly ⟨p0, p1, p2, p3⟩).a3))
      = mul four p1 := by
    simp only [eval_from_poly, add, sub, mul, i, four, complex.mk.injEq]
    constructor <;> ring
  have h2 : sub (add (eval_from_poly ⟨p0, p1, p2, p3⟩).a0
        (eval_from_poly ⟨p0, p1, p2, p3⟩).a2)
      (add (eval_from_poly ⟨p0, p1, p2, p3⟩).a1 (eval_from_poly ⟨p0, p1, p2, p3⟩).a3)
      = mul four p2 := by
    simp only [eval_from_poly, add, sub, mul, i, four, complex.mk.injEq]
    constructor <;> ring
  have h3 : add (sub (eval_from_poly ⟨p0, p1, p2, p3⟩).a0
        (eval_from_poly ⟨p0, p1, p2, p3⟩).a2)
      (mul i (sub (eval_from_poly ⟨p0, p1, p2, p3⟩).a1
        (eval_from_poly ⟨p0, p1, p2, p3⟩).a3))
      = mul four p3 := by
    simp only [eval_from_poly, add, sub, mul, i, four, complex.mk.injEq]
    constructor <;> ring
  simp only [poly_from_eval]
  rw [h0, h1, h2, h3, cdiv_four, cdiv_four, cdiv_four, cdiv_four]

/-- The complex forward transform agrees with the reference DFT,
exactly and unconditionally. -/
theorem eval_dft_c (p : Poly) (j : Fin 4) :
    coeff (eval_from_poly p) j = dft p j := by
  obtain ⟨p0, p1, p2, p3⟩ := p
  fin_cases j
  · show add (add p0 p2) (add p1 p3)
        = add (add (mul p0 (cpow i 0)) (mul p1 (cpow i 0)))
            (add (mul p2 (cpow i 0)) (mul p3 (cpow i 0)))
    rw [show cpow i 0 = ⟨1, 0⟩ from rfl]
    simp only [add, sub, mul, complex.mk.injEq]
    constructor <;> ring
  · show add (sub p0 p2) (mul i (sub p1 p3))
        = add (add (mul p0 (cpow i 0)) (mul p1 (cpow i 1)))
            (add (mul p2 (cpow i 2)) (mul p3 (cpow i 3)))
    rw [show cpow i 0 = ⟨1, 0⟩ from rfl, show cpow i 1 = ⟨0, 1⟩ from rfl,
      show cpow i 2 = ⟨-1, 0⟩ from rfl, show cpow i 3 = ⟨0, -1⟩ from rfl]
    simp only [add, sub, mul, i, complex.mk.injEq]
    constructor <;> ring
  · show sub (add p0 p2) (add p1 p3)
        = add (add (mul p0 (cpow i 0)) (mul p1 (cpow i 2)))
            (add (mul p2 (cpow i 4)) (mul p3 (cpow i 6)))
    rw [show cpow i 0 = ⟨1, 0⟩ from rfl, show cpow i 2 = ⟨-1, 0⟩ from rfl,
      show cpow i 4 = ⟨1, 0⟩ from rfl, show cpow i 6 = ⟨-1, 0⟩ from rfl]
    simp only [add, sub, mul, complex.mk.injEq]
    constructor <;> ring
  · show sub (sub p0 p2) (mul i (sub p1 p3))
        = add (add (mul p0 (cpow i 0)) (mul p1 (cpow i 3)))
            (add (mul p2 (cpow i 6)) (mul p3 (cpow i 9)))
    rw [show cpow i 0 = ⟨1, 0⟩ from rfl, show cpow i 3 = ⟨0, -1⟩ from rfl,
      show cpow i 6 = ⟨-1, 0⟩ from rfl, show cpow i 9 = ⟨0, 1⟩ from rfl]
    simp only [add, sub, mul, i, complex.mk.injEq]
    constructor <;> ring

/-- `unscale` after `scale` restores any complex polynomial for every
nonzero scale factor. -/
theorem scale_unscale_c (p : Poly) (k : complex) (hk : k ≠ zero) :
    unscale (scale p k) k = some p := by
  have hk2 : mul k k ≠ zero := cmul_ne_zero hk hk
  have hk3 : mul (mul k k) k ≠ zero := cmul_ne_zero hk2 hk
  simp only [scale, unscale]
  rw [cdiv_mul_cancel p.a1 k hk, cdiv_mul_cancel p.a2 (mul k k) hk2,
      cdiv_mul_cancel p.a3 (mul (mul k k) k) hk3]

/-- Shape of a successful complex `unscale`: coefficient 0 is passed
through and coefficient `j` is the exact quotient by the running factor. -/
theorem cunscale_char {a : Poly} {k : complex} {q : Poly}
    (h : unscale a k = some q) :
    q.a0 = a.a0 ∧ div a.a1 k = some q.a1 ∧ div a.a2 (mul k k) = some q.a2 ∧
      div a.a3 (mul (mul k k) k) = some q.a3 := by
  unfold unscale at h
  rcases hd1 : div a.a1 k with _ | b1 <;> rw [hd1] at h
  · exact Option.noConfusion h
  rcases hd2 : div a.a2 (mul k k) with _ | b2 <;> rw [hd2] at h
  · exact Option.noConfusion h
  rcases hd3 : div a.a3 (mul (mul k k) k) with _ | b3 <;> rw [hd3] at h
  · exact Option.noConfusion h
  cases h
  exact ⟨rfl, rfl, rfl, rfl⟩

end Cplx

/-- Claim C1: the full recovery pipeline of finite.c (data `[5,7,0,0]`,
erasures `{1,2}`, zero polynomial `[13,14,1,0]`, scale factor 2) recovers
exactly `[5,7,0,0]`, and the pipeline of main.c (data
`[{5,0},{7,0},{0,0},{0,0}]`, erasures `{1,2}`, zero polynomial
`[{0,-1},{1,-1},{1,0},{0,0}]`, scale factor `{2,0}`) recovers exactly
`[{5,0},{7,0},{0,0},{0,0}]`. -/
theorem C1_end_to_end_recovery :
    Fin17.main_result = some ⟨5, 7, 0, 0⟩ ∧
      Cplx.main_result = some ⟨⟨5, 0⟩, ⟨7, 0⟩, ⟨0, 0⟩, ⟨0, 0⟩⟩ := by
  constructor <;> decide

/-- Claim C2: for every 4-coefficient polynomial over either domain
(finite-field coefficients canonical in `[0,17)`; complex coefficients
unrestricted, as the inverse divisions by 4 are always exact there),
`poly_from_eval (eval_from_poly p) = p` element by element, with no
rounding and no failing division. -/
theorem C2_roundtrip :
    (∀ p : Fin17.Poly, Fin17.canonP p →
        Fin17.poly_from_eval (Fin17.eval_from_poly p) = some p) ∧
      (∀ q : Cplx.Poly, Cplx.poly_from_eval (Cplx.eval_from_poly q) = some q) :=
  ⟨fun _ hp => Fin17.roundtrip_f hp, fun q => Cplx.roundtrip_c q⟩

/-- Witness for C2 at the data polynomials of both programs. -/
theorem C2_roundtrip_witness :
    Fin17.poly_from_eval (Fin17.eval_from_poly ⟨5, 7, 0, 0⟩) = some ⟨5, 7, 0, 0⟩ ∧
      Cplx.poly_from_eval (Cplx.eval_from_poly ⟨⟨5, 0⟩, ⟨7, 0⟩, ⟨0, 0⟩, ⟨0, 0⟩⟩) =
        some ⟨⟨5, 0⟩, ⟨7, 0⟩, ⟨0, 0⟩, ⟨0, 0⟩⟩ :=
  ⟨C2_roundtrip.1 ⟨5, 7, 0, 0⟩ (by decide),
   C2_roundtrip.2 ⟨⟨5, 0⟩, ⟨7, 0⟩, ⟨0, 0⟩, ⟨0, 0⟩⟩⟩

/-- Claim C3: the hand-unrolled butterfly `eval_from_poly` equals the
reference length-4 DFT: output `j` is the sum over `k` of
`p[k] * r^(j*k)`, with `r = 4` mod 17 (on canonical polynomials, as
canonical residues) and `r = i` for the complex integers (exactly). -/
theorem C3_forward_is_dft :
    (∀ p : Fin17.Poly, Fin17.canonP p → ∀ j : Fin 4,
        Fin17.coeff (Fin17.eval_from_poly p) j = Fin17.dft p j) ∧
      (∀ q : Cplx.Poly, ∀ j : Fin 4,
        Cplx.coeff (Cplx.eval_from_poly q) j = Cplx.dft q j) :=
  ⟨fun _ hp j => Fin17.eval_dft_f hp j, fun q j => Cplx.eval_dft_c q j⟩

/-- Witness for C3 at the data polynomials of both programs, index 1. -/
theorem C3_witness :
    Fin17.coeff (Fin17.eval_from_poly ⟨5, 7, 0, 0⟩) 1 = Fin17.dft ⟨5, 7, 0, 0⟩ 1 ∧
      Cplx.coeff (Cplx.eval_from_poly ⟨⟨5, 0⟩, ⟨7, 0⟩, ⟨0, 0⟩, ⟨0, 0⟩⟩) 1 =
        Cplx.dft ⟨⟨5, 0⟩, ⟨7, 0⟩, ⟨0, 0⟩, ⟨0, 0⟩⟩ 1 :=
  ⟨C3_forward_is_dft.1 ⟨5, 7, 0, 0⟩ (by decide) 1,
   C3_forward_is_dft.2 ⟨⟨5, 0⟩, ⟨7, 0⟩, ⟨0, 0⟩, ⟨0, 0⟩⟩ 1⟩

/-- Claim C4 counterexample: the claim says `div` fails whenever the
divisor is the additive identity, but the finite-field `div 0 0`
succeeds and returns 0: the inverse table maps residue 0 to 0 and the
self-check `equal(0, mul(0, 0))` passes. -/
theorem C4_cex : Fin17.div 0 0 = some 0 := by decide

/-- Claim C4 as amended: whenever `div` succeeds, `mul q b == a`.  The
finite-field `div` on canonical residues fails exactly when `b = 0` and
`a` is a nonzero residue (so it succeeds, rather than failing, at
`a = 0, b = 0`).  The complex `div` fails whenever `b = {0,0}` (a C
division by zero) and whenever no exact Gaussian-integer quotient
exists. -/
theorem C4_div_amended :
    (∀ a b : Int, Fin17.canon a → Fin17.canon b →
        (((Fin17.div a b).isSome = true) ↔ (b ≠ 0 ∨ a = 0)) ∧
          ∀ q, Fin17.div a b = some q → Fin17.equal (Fin17.mul q b) a = true) ∧
      (∀ a b : Cplx.complex,
        (∀ q, Cplx.div a b = some q → Cplx.mul q b = a) ∧
          (b = Cplx.zero → Cplx.div a b = none) ∧
          (Cplx.div a b = none → b = Cplx.zero ∨ ∀ q, Cplx.mul q b ≠ a)) :=
  ⟨fun _ _ ha hb => ⟨Fin17.div_isSome_f ha hb, fun _ h => Fin17.div_sound_f h⟩,
   fun a _ => ⟨fun _ h => Cplx.cdiv_sound h,
     fun hb => by rw [hb]; exact Cplx.cdiv_zero a, fun h => Cplx.cdiv_none h⟩⟩

/-- Witness for C4 at `a = 3, b = 5` (finite field) and
`a = {1,3}, b = {1,1}` with quotient `{2,1}` (complex). -/
theorem C4_witness :
    ((Fin17.div 3 5).isSome = true ↔ ((5 : Int) ≠ 0 ∨ (3 : Int) = 0)) ∧
      Cplx.mul ⟨2, 1⟩ ⟨1, 1⟩ = ⟨1, 3⟩ :=
  ⟨(C4_div_amended.1 3 5 (by decide) (by decide)).1,
   (C4_div_amended.2 ⟨1, 3⟩ ⟨1, 1⟩).1 ⟨2, 1⟩ (by decide)⟩

/-- Claim C5 counterexample: `neg 0 = MOD - 0 = 17`, which is not a
canonical residue in `[0,17)`. -/
theorem C5_cex : Fin17.neg 0 = 17 ∧ ¬ Fin17.canon (Fin17.neg 0) := by
  constructor <;> decide

/-- Claim C5 as amended: on canonical inputs, `add`, `sub`, `mul` and a
succeeding `div` return canonical residues in `[0,17)`; `neg` returns a
canonical residue only for nonzero inputs (`neg 0 = 17` falls outside
`[0,17)`, though it is congruent to 0). -/
theorem C5_canonical_amended :
    ∀ a b : Int, Fin17.canon a → Fin17.canon b →
      Fin17.canon (Fin17.add a b) ∧ Fin17.canon (Fin17.sub a b) ∧
        Fin17.canon (Fin17.mul a b) ∧
        (∀ q, Fin17.div a b = some q → Fin17.canon q) ∧
        (a ≠ 0 → Fin17.canon (Fin17.neg a)) :=
  fun _ _ ha hb =>
    ⟨Fin17.canon_add ha hb, Fin17.canon_sub ha hb, Fin17.canon_mul ha hb,
     fun _ h => Fin17.canon_div ha.1 h, fun hne => Fin17.canon_neg ha hne⟩

/-- Witness for C5 at `a = 9, b = 12`. -/
theorem C5_witness :
    Fin17.canon (Fin17.add 9 12) ∧ Fin17.canon (Fin17.sub 9 12) ∧
      Fin17.canon (Fin17.mul 9 12) ∧
      (∀ q, Fin17.div 9 12 = some q → Fin17.canon q) ∧
      ((9 : Int) ≠ 0 → Fin17.canon (Fin17.neg 9)) :=
  C5_canonical_amended 9 12 (by decide) (by decide)

/-- Claim C6: `unscale (scale p k) k = p` exactly, for every canonical
polynomial and nonzero canonical scale factor over the mod-17 field, and
for every complex polynomial and nonzero complex scale factor (all the
unscale divisions are then exact). -/
theorem C6_scale_unscale :
    (∀ (p : Fin17.Poly) (k : Int), Fin17.canonP p → Fin17.canon k → k ≠ 0 →
        Fin17.unscale (Fin17.scale p k) k = some p) ∧
      (∀ (q : Cplx.Poly) (c : Cplx.complex), c ≠ Cplx.zero →
        Cplx.unscale (Cplx.scale q c) c = some q) :=
  ⟨fun _ _ hp hk hne => Fin17.scale_unscale_f hp hk hne,
   fun q c hc => Cplx.scale_unscale_c q c hc⟩

/-- Witness for C6 at the data polynomials with scale factor 2. -/
theorem C6_witness :
    Fin17.unscale (Fin17.scale ⟨5, 7, 0, 0⟩ 2) 2 = some ⟨5, 7, 0, 0⟩ ∧
      Cplx.unscale (Cplx.scale ⟨⟨5, 0⟩, ⟨7, 0⟩, ⟨0, 0⟩, ⟨0, 0⟩⟩ ⟨2, 0⟩) ⟨2, 0⟩ =
        some ⟨⟨5, 0⟩, ⟨7, 0⟩, ⟨0, 0⟩, ⟨0, 0⟩⟩ :=
  ⟨C6_scale_unscale.1 ⟨5, 7, 0, 0⟩ 2 (by decide) (by decide) (by decide),
   C6_scale_unscale.2 ⟨⟨5, 0⟩, ⟨7, 0⟩, ⟨0, 0⟩, ⟨0, 0⟩⟩ ⟨2, 0⟩ (by decide)⟩

/-- Claim C7: `scale` and `unscale` leave coefficient 0 unchanged and
modify coefficient `j` only by multiplying (respectively exactly
dividing) it by `k^j`, the iterated product computed by the running
factor; nothing else is touched. -/
theorem C7_scale_frame :
    (∀ (p : Fin17.Poly) (k : Int),
        (Fin17.scale p k).a0 = p.a0 ∧
          (Fin17.scale p k).a1 = Fin17.mul p.a1 (Fin17.fpow k 1) ∧
          (Fin17.scale p k).a2 = Fin17.mul p.a2 (Fin17.fpow k 2) ∧
          (Fin17.scale p k).a3 = Fin17.mul p.a3 (Fin17.fpow k 3) ∧
          ∀ q, Fin17.unscale p k = some q →
            q.a0 = p.a0 ∧ Fin17.div p.a1 (Fin17.fpow k 1) = some q.a1 ∧
              Fin17.div p.a2 (Fin17.fpow k 2) = some q.a2 ∧
              Fin17.div p.a3 (Fin17.fpow k 3) = some q.a3) ∧
      (∀ (p : Cplx.Poly) (k : Cplx.complex),
        (Cplx.scale p k).a0 = p.a0 ∧
          (Cplx.scale p k).a1 = Cplx.mul p.a1 (Cplx.cpow k 1) ∧
          (Cplx.scale p k).a2 = Cplx.mul p.a2 (Cplx.cpow k 2) ∧
          (Cplx.scale p k).a3 = Cplx.mul p.a3 (Cplx.cpow k 3) ∧
          ∀ q, Cplx.unscale p k = some q →
            q.a0 = p.a0 ∧ Cplx.div p.a1 (Cplx.cpow k 1) = some q.a1 ∧
              Cplx.div p.a2 (Cplx.cpow k 2) = some q.a2 ∧
              Cplx.div p.a3 (Cplx.cpow k 3) = some q.a3) := by
  constructor
  · intro p k
    exact ⟨rfl, rfl, rfl, rfl, fun _ h => Fin17.unscale_char h⟩
  · intro p k
    exact ⟨rfl, rfl, rfl, rfl, fun _ h => Cplx.cunscale_char h⟩

/-- Witness for C7: unscaling `[5,7,0,0]` by 2 (finite field) and
`[{5,0},{8,0},{0,0},{0,0}]` by `{2,0}` (complex), with the success
hypothesis discharged by computation. -/
theorem C7_witness :
    ((5 : Int) = 5 ∧ Fin17.div 7 (Fin17.fpow 2 1) = some 12 ∧
        Fin17.div 0 (Fin17.fpow 2 2) = some 0 ∧
        Fin17.div 0 (Fin17.fpow 2 3) = some 0) ∧
      ((⟨5, 0⟩ : Cplx.complex) = ⟨5, 0⟩ ∧
        Cplx.div ⟨8, 0⟩ (Cplx.cpow ⟨2, 0⟩ 1) = some ⟨4, 0⟩ ∧
        Cplx.div ⟨0, 0⟩ (Cplx.cpow ⟨2, 0⟩ 2) = some ⟨0, 0⟩ ∧
        Cplx.div ⟨0, 0⟩ (Cplx.cpow ⟨2, 0⟩ 3) = some ⟨0, 0⟩) :=
  ⟨(C7_scale_frame.1 ⟨5, 7, 0, 0⟩ 2).2.2.2.2 ⟨5, 12, 0, 0⟩ (by decide),
   (C7_scale_frame.2 ⟨⟨5, 0⟩, ⟨8, 0⟩, ⟨0, 0⟩, ⟨0, 0⟩⟩ ⟨2, 0⟩).2.2.2.2
     ⟨⟨5, 0⟩, ⟨4, 0⟩, ⟨0, 0⟩, ⟨0, 0⟩⟩ (by decide)⟩

/-- Claim C8: the forward transform of the zero polynomial is the
additive identity exactly at the erased indices 1 and 2 and a
non-identity value at indices 0 and 3, in both domains.  In the
finite-field program the values are canonical residues, so Int equality
agrees with field equality; the Boolean `equal` check is included too. -/
theorem C8_zero_poly_roots :
    (Fin17.zero_poly_eval.a1 = 0 ∧ Fin17.zero_poly_eval.a2 = 0 ∧
        Fin17.zero_poly_eval.a0 ≠ 0 ∧ Fin17.zero_poly_eval.a3 ≠ 0 ∧
        Fin17.equal Fin17.zero_poly_eval.a0 0 = false ∧
        Fin17.equal Fin17.zero_poly_eval.a3 0 = false) ∧
      (Cplx.zero_poly_eval.a1 = Cplx.zero ∧ Cplx.zero_poly_eval.a2 = Cplx.zero ∧
        Cplx.zero_poly_eval.a0 ≠ Cplx.zero ∧ Cplx.zero_poly_eval.a3 ≠ Cplx.zero) := by
  constructor <;> decide

/-- Claim C9 counterexample: for the erasure pattern `{1,2,3}` of size 3,
the pipeline (finite.c's `main` steps with the erasure pattern as the
only generalized input) raises no failure at all - it returns a normal
result - and that result is not the original data: silently wrong
output.  No erasure-count check exists anywhere in the code. -/
theorem C9_cex :
    Fin17.recover [1, 2, 3] ≠ none ∧
      Fin17.recover [1, 2, 3] ≠ some Fin17.data_poly := by
  constructor <;> decide

/-- Claim C9 as amended: the code performs no erasure-count detection.
On the supported pattern `{1,2}` the generalized pipeline returns the
original data, and on the 3-erasure pattern `{1,2,3}` it completes
without any failure and silently returns `[12,0,0,0]` instead of
`[5,7,0,0]`. -/
theorem C9_no_erasure_check :
    Fin17.recover [1, 2] = some Fin17.data_poly ∧
      Fin17.recover [1, 2, 3] = some ⟨12, 0, 0, 0⟩ := by
  constructor <;> decide

/-- Claim C10: the finite-field inverse transform is total on canonical
evaluation vectors: all four internal divisions by 4 succeed (4 is
invertible mod 17, so the self-check assert inside `div` passes), and
the error branch of `poly_from_eval` is unreachable. -/
theorem C10_inverse_total :
    ∀ e : Fin17.Poly, Fin17.canonP e → (Fin17.poly_from_eval e).isSome = true :=
  fun _ he => Fin17.poly_from_eval_isSome he

/-- Witness for C10 at the evaluation vector `[1,2,3,4]`. -/
theorem C10_witness : (Fin17.poly_from_eval ⟨1, 2, 3, 4⟩).isSome = true :=
  C10_inverse_total ⟨1, 2, 3, 4⟩ (by decide)
